import Mathlib

/-!
# Verification of the qick assembler/scheduler core

Shallow embedding of the qick repository's assembler code
(`qick_lib/qick/qick_asm.py` and `qick_lib/qick/asm_v2.py`) and proofs
about it.  Each definition is transcribed from the Python source; the few
definitions whose Python source is imported but not present in this
repository snapshot (the `AbsQickProgram` timestamp store) are modelled
from the specification and marked as such in their doc comments.
-/

namespace Qick

/-- Python exception kinds raised by the embedded code paths. -/
inductive PyErr
  | runtimeError
  | indexError
  | typeError
  | nameError
  | keyError
  | overflowError
deriving DecidableEq, Repr

instance {ε α : Type} [DecidableEq ε] [DecidableEq α] : DecidableEq (Except ε α)
  | .ok x, .ok y =>
    if h : x = y then .isTrue (congrArg Except.ok h)
    else .isFalse (fun hc => h (Except.ok.inj hc))
  | .error x, .error y =>
    if h : x = y then .isTrue (congrArg Except.error h)
    else .isFalse (fun hc => h (Except.error.inj hc))
  | .ok _, .error _ => .isFalse (fun hc => Except.noConfusion hc)
  | .error _, .ok _ => .isFalse (fun hc => Except.noConfusion hc)

/-! ## V1 assembler: `qick_asm.py`, class `QickProgram` -/

/-- The V1 instructions emitted by `QickProgram.safe_regwi`
(`qick_asm.py` lines 268-280): `regwi rp reg imm`, `bitwi rp reg reg "<<" amt`
and `mathi rp reg reg "+" imm`. -/
inductive InstrV1
  | regwi (rp reg : Nat) (imm : Nat)
  | bitwiShl (rp reg src : Nat) (amt : Nat)
  | mathiAdd (rp reg src : Nat) (imm : Nat)
deriving DecidableEq, Repr

/-- `QickProgram.safe_regwi` (`qick_asm.py` lines 268-280), restricted to
non-negative immediates, returning the list of emitted instructions:
`if imm < 2**30: regwi(rp,reg,imm)` else `regwi(rp,reg,imm>>1)`,
`bitwi(rp,reg,reg,"<<",2)`, and `mathi(rp,reg,reg,"+",imm%4)` when
`imm % 4 != 0`. -/
def safe_regwi (rp reg : Nat) (imm : Nat) : List InstrV1 :=
  if imm < 2 ^ 30 then [.regwi rp reg imm]
  else [.regwi rp reg (imm >>> 1), .bitwiShl rp reg reg 2] ++
    (if imm % 4 ≠ 0 then [.mathiAdd rp reg reg (imm % 4)] else [])

/-- Direct simulation of one emitted instruction on the value held in the
target register (register write, left shift, add). -/
def simStep (r : Nat) : InstrV1 → Nat
  | .regwi _ _ v => v
  | .bitwiShl _ _ _ a => r <<< a
  | .mathiAdd _ _ _ v => r + v

/-- Direct simulation of an instruction sequence starting from register value
`r0`. -/
def simulate (l : List InstrV1) (r0 : Nat) : Nat :=
  l.foldl simStep r0

/-- `QickProgram.convert_immediate` (`qick_asm.py` lines 309-316):
raises `RuntimeError` when `val > 2**31`, returns `2**31 + val` when
`val < 0`, and returns `val` otherwise. -/
def convert_immediate (val : Int) : Except PyErr Int :=
  if val > 2 ^ 31 then .error .runtimeError
  else if val < 0 then .ok (2 ^ 31 + val)
  else .ok val

/-- The maximum taken by `QickProgram.align` and `QickProgram.sync_all`:
`max([self.dac_ts[ch] for ch in range(1,9)])` (`qick_asm.py` line 264). -/
def dacMax (dac_ts : Nat → Int) : Int :=
  max (dac_ts 1) (max (dac_ts 2) (max (dac_ts 3) (max (dac_ts 4)
    (max (dac_ts 5) (max (dac_ts 6) (max (dac_ts 7) (dac_ts 8)))))))

/-- `QickProgram.align` (`qick_asm.py` lines 262-266).  The Python body is
`max_t = max([self.dac_ts[ch] for ch in range(1,9)])` followed by
`for ch in range(1,9): self.dac_ts[ch] = max_t`; note that the `chs`
parameter is never read. -/
def align (dac_ts : Nat → Int) (chs : List Nat) : Nat → Int :=
  fun ch => if 1 ≤ ch ∧ ch ≤ 8 then dacMax dac_ts else dac_ts ch

/-- Concrete timestamp state used to exhibit the behaviour of `align`:
channel 2 is at time 5, all other channels at 0. -/
def c4ts : Nat → Int :=
  fun ch => if ch = 2 then 5 else 0

/-! ## V2 wave records: `asm_v2.py`, class `Wave` -/

/-- Little-endian base-256 digits of `n`, `w` bytes. -/
def toBytesAux : Nat → Nat → List Nat
  | 0, _ => []
  | w + 1, n => n % 256 :: toBytesAux w (n / 256)

/-- Python `int(i).to_bytes(length=w, byteorder='little', signed=True)`
(`asm_v2.py` line 14): two's complement little-endian, raising
`OverflowError` when `i` lies outside the signed `w`-byte range. -/
def to_bytes (w : Nat) (i : Int) : Except PyErr (List Nat) :=
  if i < -(2 ^ (8 * w - 1)) ∨ (2 ^ (8 * w - 1) : Int) ≤ i then .error .overflowError
  else .ok (toBytesAux w (i.emod (2 ^ (8 * w))).toNat)

/-- The `Wave` namedtuple (`asm_v2.py` line 10) with fields
`freq, phase, env, gain, length, conf`, serialized at byte widths
`[4, 4, 3, 4, 4, 2]`. -/
structure Wave where
  freq : Int
  phase : Int
  env : Int
  gain : Int
  length : Int
  conf : Int
deriving DecidableEq, Repr

/-- The 21 raw bytes of `Wave.compile` (`asm_v2.py` line 14): the six fields
serialized little-endian at widths 4, 4, 3, 4, 4, 2, concatenated in field
order. -/
def Wave.rawbytes (wv : Wave) : Except PyErr (List Nat) := do
  let b1 ← to_bytes 4 wv.freq
  let b2 ← to_bytes 4 wv.phase
  let b3 ← to_bytes 3 wv.env
  let b4 ← to_bytes 4 wv.gain
  let b5 ← to_bytes 4 wv.length
  let b6 ← to_bytes 2 wv.conf
  return b1 ++ b2 ++ b3 ++ b4 ++ b5 ++ b6

/-- `Wave.compile` (`asm_v2.py` lines 12-18) at byte level:
`rawbytes[:11] + bytes(1) + rawbytes[11:] + bytes(10)`. -/
def Wave.compile (wv : Wave) : Except PyErr (List Nat) := do
  let rawbytes ← wv.rawbytes
  return rawbytes.take 11 ++ [0] ++ rawbytes.drop 11 ++ List.replicate 10 0

/-- Little-endian byte decoding, used to read a field back out of a record. -/
def from_le : List Nat → Nat
  | [] => 0
  | b :: rest => b + 256 * from_le rest

/-- The concrete wave of the claim: freq 100, phase 50, envelope address 3,
gain 1000, length 200, config 5. -/
def c3wave : Wave := ⟨100, 50, 3, 1000, 200, 5⟩

/-- The serialized record of `c3wave`. -/
def c3bytes : List Nat :=
  [100, 0, 0, 0, 50, 0, 0, 0, 3, 0, 0, 0, 232, 3, 0, 0,
   200, 0, 0, 0, 5, 0, 0, 0, 0, 0, 0, 0, 0, 0, 0, 0]

/-! ## V2 generator manager: `asm_v2.py`, class `FullSpeedGenManager` -/

/-- Output-source selector of `cfg2reg` (`asm_v2.py` line 176). -/
inductive Outsel | product | dds | input | zero
deriving DecidableEq, Repr

/-- Run-mode selector of `cfg2reg` (`asm_v2.py` line 177). -/
inductive GenMode | oneshot | periodic
deriving DecidableEq, Repr

/-- Steady-state selector of `cfg2reg` (`asm_v2.py` line 178). -/
inductive Stdysel | last | zero
deriving DecidableEq, Repr

/-- `AbsGenManager.cfg2reg` (`asm_v2.py` lines 136-179): packs the four flags,
with defaults product / oneshot / zero / 0, as
`phrst*0b010000 + stdysel_reg*0b01000 + mode_reg*0b00100 + outsel_reg`. -/
def cfg2reg (outsel : Option Outsel) (mode : Option GenMode)
    (stdysel : Option Stdysel) (phrst : Option Nat) : Nat :=
  let outsel_reg : Nat := match outsel.getD .product with
    | .product => 0 | .dds => 1 | .input => 2 | .zero => 3
  let mode_reg : Nat := match mode.getD .oneshot with
    | .oneshot => 0 | .periodic => 1
  let stdysel_reg : Nat := match stdysel.getD .zero with
    | .last => 0 | .zero => 1
  (phrst.getD 0) * 16 + stdysel_reg * 8 + mode_reg * 4 + outsel_reg

/-- `FullSpeedGenManager.params2wave` (`asm_v2.py` lines 191-196): rejects
`lenreg >= 2**16 or lenreg < 3` with a `RuntimeError`, otherwise builds
`Wave(freqreg, phasereg, env, gainreg, lenreg, confreg)`. -/
def params2wave (freqreg phasereg gainreg lenreg env : Int)
    (mode : Option GenMode) (outsel : Option Outsel)
    (stdysel : Option Stdysel) (phrst : Option Nat) : Except PyErr Wave :=
  if lenreg ≥ 2 ^ 16 ∨ lenreg < 3 then .error .runtimeError
  else .ok ⟨freqreg, phasereg, env, gainreg, lenreg, (cfg2reg outsel mode stdysel phrst : Int)⟩

/-- The three pulse styles accepted by `FullSpeedGenManager` (`asm_v2.py`
lines 184-189). -/
inductive PulseStyle | const | arb | flat_top
deriving DecidableEq, Repr

/-- The wave list built by `FullSpeedGenManager.params2pulse`
(`asm_v2.py` lines 198-249).  The `const` branch calls
`self.params2wave(**wavepars)` without the required `lenreg` argument, a
Python `TypeError`; the `arb` branch produces exactly one wave with
`env = env_addr` and `lenreg = env_length`; the `flat_top` style matches
neither branch (the flat-top code at lines 250-275 sits inside a string
literal after `return pulse`), so its wave list is empty. -/
def params2pulse_waves (style : PulseStyle) (freqreg phasereg gainreg : Int)
    (env_addr env_length : Int) (mode : Option GenMode) (outsel : Option Outsel)
    (stdysel : Option Stdysel) (phrst : Option Nat) : Except PyErr (List Wave) :=
  match style with
  | .const => .error .typeError
  | .arb => do
      let w ← params2wave freqreg phasereg gainreg env_length env_addr mode outsel stdysel phrst
      return [w]
  | .flat_top => .ok []

/-- Effect of `AbsRegisterManager.add_pulse` (`asm_v2.py` lines 30-50) on the
program's wave table: every wave of the compiled pulse is appended to the
table through `QickProgramV2.add_wave`. -/
def add_pulse_waves (table : List Wave) (style : PulseStyle)
    (freqreg phasereg gainreg env_addr env_length : Int) (mode : Option GenMode)
    (outsel : Option Outsel) (stdysel : Option Stdysel) (phrst : Option Nat) :
    Except PyErr (List Wave) := do
  let ws ← params2pulse_waves style freqreg phasereg gainreg env_addr env_length
    mode outsel stdysel phrst
  return table ++ ws

/-! ## V2 program builder: `asm_v2.py`, class `QickProgramV2` -/

/-- The V2 instruction forms used by the embedded builder methods (the
instruction dicts with a `CMD` key in the source). -/
inductive InstV2
  | regWrImm (dst : String) (lit : Int) (uf : Bool)
  | regWrOp (dst op : String) (uf : Bool)
  | jumpAddr (addr : Nat) (uf : Bool)
  | jumpLabel (label cond : String) (uf : Bool)
  | waitTime (addr : Nat) (time : Int)
deriving DecidableEq, Repr

/-- An instruction as stored in `prog_list`, with the `P_ADDR` and `LINE`
fields attached by `add_instruction`. -/
structure TaggedInst where
  inst : InstV2
  pAddr : Nat
  line : Nat
deriving DecidableEq, Repr

/-- The builder state of `QickProgramV2.__init__` (`asm_v2.py` lines
282-306).  A label value is stored here as the numeric address `n` of the
Python string `'&n'`; the special predefined entry `'s15': 's15'` is
omitted.  `dreg_qty` is `soccfg['tprocs'][0]['dreg_qty']`. -/
structure ProgV2 where
  prog_list : List TaggedInst
  labels : List (String × Nat)
  p_addr : Nat
  line : Nat
  user_reg_dict : List (String × Nat)
  user_regs : List Nat
  loop_list : List String
  loop_stack : List String
  dreg_qty : Nat
deriving DecidableEq, Repr

/-- A fresh program: empty lists and `p_addr = line = 1` (the first
instruction is always a NOP, so both counters start at 1). -/
def ProgV2.init (dreg_qty : Nat) : ProgV2 :=
  ⟨[], [], 1, 1, [], [], [], [], dreg_qty⟩

/-- `QickProgramV2.add_instruction` (`asm_v2.py` lines 308-315): tags the
instruction with the current program address and line, then advances
`p_addr` by `addr_inc` and `line` by 1. -/
def ProgV2.add_instruction (p : ProgV2) (inst : InstV2) (addr_inc : Nat) : ProgV2 :=
  { p with prog_list := p.prog_list ++ [⟨inst, p.p_addr, p.line⟩],
           p_addr := p.p_addr + addr_inc,
           line := p.line + 1 }

/-- `QickProgramV2.wait` (`asm_v2.py` lines 320-322): the assembler expands
`WAIT` into two instructions, so it is appended with `addr_inc=2`, its
`ADDR` field being `&(p_addr + 1)`. -/
def ProgV2.wait (p : ProgV2) (time : Int) : ProgV2 :=
  p.add_instruction (.waitTime (p.p_addr + 1) time) 2

/-- `QickProgramV2.add_label` (`asm_v2.py` lines 324-327):
`self.labels[label] = '&' + str(len(self.prog_list)+1)`. -/
def ProgV2.add_label (p : ProgV2) (label : String) : ProgV2 :=
  { p with labels := (label, p.prog_list.length + 1) :: p.labels }

/-- `QickProgramV2.new_reg` (`asm_v2.py` lines 329-365) on the `addr=None`
path used by `open_loop`: scan from 0 for the first free register address
(`RuntimeError` when the page is full), then reject a duplicate register
name with a `NameError`. -/
def ProgV2.new_reg (p : ProgV2) (name : String) : Except PyErr (ProgV2 × Nat) :=
  match (List.range p.dreg_qty).find? (fun a => ! p.user_regs.contains a) with
  | none => .error .runtimeError
  | some addr =>
    if (p.user_reg_dict.lookup name).isSome then .error .nameError
    else .ok ({ p with user_regs := p.user_regs ++ [addr],
                       user_reg_dict := (name, addr) :: p.user_reg_dict }, addr)

/-- Python `str.upper()` as applied to the ASCII loop names
(`name.upper()`, `asm_v2.py` lines 426 and 432). -/
def strUpper (s : String) : String := ⟨s.data.map Char.toUpper⟩

/-- `QickProgramV2.open_loop` (`asm_v2.py` lines 420-426) with the default
`name=None, addr=None`: allocates the loop counter register, records the
loop name on list and stack, writes the counter with the immediate `n` and
places the upper-cased loop label. -/
def ProgV2.open_loop (p : ProgV2) (n : Int) : Except PyErr ProgV2 := do
  let name := "loop_" ++ toString p.loop_list.length
  let (p1, addr) ← p.new_reg name
  let p2 : ProgV2 := { p1 with loop_list := p1.loop_list ++ [name],
                               loop_stack := p1.loop_stack ++ [name] }
  let p3 := p2.add_instruction (.regWrImm ("r" ++ toString addr) n false) 1
  return p3.add_label (strUpper name)

/-- `QickProgramV2.close_loop` (`asm_v2.py` lines 428-432): pops the loop
stack (Python raises `IndexError` from `list.pop()` when it is empty), then
appends the flag-updating decrement `REG_WR r{addr} op r{addr}-#1 UF=1`
followed by the conditional `JUMP LABEL IF NZ`. -/
def ProgV2.close_loop (p : ProgV2) : Except PyErr ProgV2 :=
  match p.loop_stack.getLast? with
  | none => .error .indexError
  | some name =>
    match ({ p with loop_stack := p.loop_stack.dropLast } : ProgV2).user_reg_dict.lookup name with
    | none => .error .keyError
    | some addr =>
      .ok ((({ p with loop_stack := p.loop_stack.dropLast } : ProgV2).add_instruction
        (.regWrOp ("r" ++ toString addr) ("r" ++ toString addr ++ "-#1") true)
        1).add_instruction (.jumpLabel (strUpper name) "NZ" false) 1)

/-- The builder operations that may occur between a loop's `open_loop` and
its matching `close_loop` while that opening stays the most recent
unmatched one: appending instructions of any address increment, the
compound `wait`, placing labels, allocating registers, and running a
properly nested inner loop (its own `open_loop`, then a body, then its own
successful `close_loop`).  `LoopBody p q` says `q` is reachable from `p`
by such operations. -/
inductive LoopBody : ProgV2 → ProgV2 → Prop
  | refl (p : ProgV2) : LoopBody p p
  | inst {p q : ProgV2} (i : InstV2) (k : Nat) :
      LoopBody p q → LoopBody p (q.add_instruction i k)
  | waitStep {p q : ProgV2} (t : Int) :
      LoopBody p q → LoopBody p (q.wait t)
  | labelStep {p q : ProgV2} (lab : String) :
      LoopBody p q → LoopBody p (q.add_label lab)
  | newRegStep {p q : ProgV2} {ra : ProgV2 × Nat} (nm : String) :
      LoopBody p q → q.new_reg nm = .ok ra → LoopBody p ra.1
  | nested {p q r s t : ProgV2} (n : Int) :
      LoopBody p q → q.open_loop n = .ok r → LoopBody r s →
      s.close_loop = .ok t → LoopBody p t

/-- The program state produced by `open_loop 100` on a fresh program with a
16-register page. -/
def c9p1 : ProgV2 :=
  ⟨[⟨.regWrImm "r0" 100 false, 1, 1⟩], [("LOOP_0", 2)], 2, 2,
   [("loop_0", 0)], [0], ["loop_0"], ["loop_0"], 16⟩

/-- A loop-body state for the C9 witness: one body instruction appended
after the `open_loop 100` that produced `c9p1`. -/
def c9p2 : ProgV2 := c9p1.add_instruction (.regWrImm "r1" 7 false) 1

/-! ## V2 timing scheduler: per-channel timestamps

The timestamp store lives in `AbsQickProgram`, which `asm_v2.py` imports
from `qick_asm` but which is not part of this repository snapshot; the store
itself is therefore modelled from the spec.  The scheduler macros `pulse`,
`trigger` and `sync_all` acting on it are transcribed from
`QickProgramV2` in `asm_v2.py`. -/

/-- Python `int(x)` (truncation toward zero) applied to a rational. -/
def pyint (q : ℚ) : Int := if q < 0 then ⌈q⌉ else ⌊q⌋

/-- Modelled from the spec: the per-channel timestamp store of the missing
`AbsQickProgram` (`get_timestamp`/`set_timestamp`): a "per-channel integer
'earliest allowed next output time'" (spec section 3), with `ngens`
generator channels and `nros` readout channels. -/
structure TS where
  ngens : Nat
  nros : Nat
  gen_ts : Nat → Int
  ro_ts : Nat → Int

/-- Modelled from the spec: `set_timestamp(v, gen_ch=ch)` of the missing
`AbsQickProgram`. -/
def TS.set_gen (s : TS) (ch : Nat) (v : Int) : TS :=
  { s with gen_ts := fun c => if c = ch then v else s.gen_ts c }

/-- Modelled from the spec: `set_timestamp(v, ro_ch=ch)` of the missing
`AbsQickProgram`. -/
def TS.set_ro (s : TS) (ch : Nat) (v : Int) : TS :=
  { s with ro_ts := fun c => if c = ch then v else s.ro_ts c }

/-- Modelled from the spec: `reset_timestamps` of the missing
`AbsQickProgram` - "resets all channel timestamps to zero" (spec
section 4.5). -/
def TS.reset (s : TS) : TS :=
  { s with gen_ts := fun _ => 0, ro_ts := fun _ => 0 }

/-- Python `max` of a non-empty list of integers. -/
def intMax : List Int → Int
  | [] => 0
  | a :: rest => rest.foldl max a

/-- Modelled from the spec: `get_max_timestamp` of the missing
`AbsQickProgram` - "computes the maximum timestamp across all channels"
(spec section 4.5). -/
def TS.get_max (s : TS) : Int :=
  intMax (((List.range s.ngens).map s.gen_ts) ++ ((List.range s.nros).map s.ro_ts))

/-- Timestamp effect of `QickProgramV2.pulse` with `t='auto'`
(`asm_v2.py` lines 403-406): the channel timestamp becomes
`int(ts + pulse_length)`, where `pulse_length` is the pulse length scaled
by `f_time / f_fabric`. -/
def pulse_auto (s : TS) (ch : Nat) (pulse_length : ℚ) : TS :=
  s.set_gen ch (pyint ((s.gen_ts ch : ℚ) + pulse_length))

/-- Timestamp effect of `QickProgramV2.pulse` with an explicit time `t`
(`asm_v2.py` lines 407-412): on a conflict (`t < ts`) it warns and still
sets `int(ts + pulse_length)`; otherwise it sets `int(t + pulse_length)`. -/
def pulse_at (s : TS) (ch : Nat) (t : Int) (pulse_length : ℚ) : TS :=
  if t < s.gen_ts ch then s.set_gen ch (pyint ((s.gen_ts ch : ℚ) + pulse_length))
  else s.set_gen ch (pyint ((t : ℚ) + pulse_length))

/-- Timestamp effect of the per-readout loop of `QickProgramV2.trigger`
(`asm_v2.py` lines 443-453): each triggered readout of scaled length
`ro_length` gets timestamp `int(treg + ro_length)`.  When `treg < ts` the
warning `print` references the undefined name `tireg` (line 450), so the
call dies with a `NameError` right there, leaving the readouts processed
earlier in the loop already updated; the Boolean records that abort. -/
def trigger_ros : TS → Int → List (Nat × ℚ) → TS × Bool
  | s, _, [] => (s, false)
  | s, treg, (ro, ro_length) :: rest =>
    if treg < s.ro_ts ro then (s, true)
    else trigger_ros (s.set_ro ro (pyint ((treg : ℚ) + ro_length))) treg rest

/-- `QickProgram.align` of the V1 assembler (`qick_asm.py` lines 262-266)
acting on the generator timestamps: every generator channel is set to the
maximum generator timestamp (the `chs` argument is ignored by the source,
see `align`). -/
def TS.alignGens (s : TS) : TS :=
  { s with gen_ts := fun c =>
      if c < s.ngens then intMax ((List.range s.ngens).map s.gen_ts)
      else s.gen_ts c }

/-- Timestamp effect of `QickProgramV2.sync_all` (`asm_v2.py` lines
477-482): when `max_t + treg > 0` it emits the global time increment and
resets every timestamp to zero; otherwise it does nothing. -/
def sync_all (s : TS) (treg : Int) : TS :=
  if s.get_max + treg > 0 then s.reset else s

/-- One scheduling operation: a pulse with automatic or explicit time, a
trigger on readout channels, an align, or the global sync_all reset. -/
inductive SchedOp
  | pulseAuto (ch : Nat) (pulse_length : ℚ)
  | pulseAt (ch : Nat) (t : Int) (pulse_length : ℚ)
  | triggerOp (treg : Int) (ros : List (Nat × ℚ))
  | alignOp
  | syncAll (treg : Int)

/-- Interpretation of one scheduling operation on the timestamp store. -/
def step (s : TS) : SchedOp → TS
  | .pulseAuto ch L => pulse_auto s ch L
  | .pulseAt ch t L => pulse_at s ch t L
  | .triggerOp treg ros => (trigger_ros s treg ros).1
  | .alignOp => s.alignGens
  | .syncAll treg => sync_all s treg

/-- A whole sequence of scheduling operations. -/
def run (s : TS) (ops : List SchedOp) : TS :=
  ops.foldl step s

/-- The scaled durations of the automatic-time pulses played on channel
`ch`, in program order. -/
def chAutoDurs (ch : Nat) : List SchedOp → List ℚ
  | [] => []
  | .pulseAuto c L :: rest =>
    if c = ch then L :: chAutoDurs ch rest else chAutoDurs ch rest
  | _ :: rest => chAutoDurs ch rest

/-- Every duration mentioned by the operation is non-negative (true of the
source, where lengths are non-negative sample counts scaled by positive
clock frequencies). -/
def nonnegDur : SchedOp → Prop
  | .pulseAuto _ L => 0 ≤ L
  | .pulseAt _ _ L => 0 ≤ L
  | .triggerOp _ ros => ∀ x ∈ ros, 0 ≤ x.2
  | .alignOp => True
  | .syncAll _ => True

/-- Whether the operation is the global `sync_all` reset. -/
def SchedOp.isSync : SchedOp → Bool
  | .syncAll _ => true
  | _ => false

/-- The operation touches generator channel `ch` only through
automatic-time pulses: explicit-time pulses must target other channels, and
the global align / sync_all are excluded. -/
def avoidsCh (ch : Nat) : SchedOp → Prop
  | .pulseAuto _ _ => True
  | .pulseAt c _ _ => c ≠ ch
  | .triggerOp _ _ => True
  | .alignOp => False
  | .syncAll _ => False

/-! ## V1 flat-top pulses: `QickProgram.flat_top_pulse` -/

/-- One `set` play step of the V1 assembler, abstracted to the parameters
written by the `set_pulse_registers` call that precedes it: envelope
address, gain, length, output selector (0 = product, 1 = dds, the
numbering of `cfg2reg`) and schedule time. -/
structure PlayStep where
  addr : Nat
  gain : Nat
  length : Nat
  outsel : Nat
  t : Int
deriving DecidableEq, Repr

/-- The three play steps of `QickProgram.flat_top_pulse` (`qick_asm.py`
lines 232-246) for a pulse scheduled at time `t` with a registered envelope
of `envSamples` samples (the ramp length is `envSamples//16//2` clock
cycles), flat length `flatLen` and requested gain `gain`: ramp-up
(`addr`, full gain, outsel 0) at `t`; flat segment (gain halved by integer
division, outsel 1) at `t`; ramp-down (`addr` offset by the ramp length,
full gain, outsel 0) at `t + ramp_length + flatLen`. -/
def flat_top_play (t : Int) (addr gain envSamples flatLen : Nat) : List PlayStep :=
  let ramp_length := envSamples / 16 / 2
  [⟨addr, gain, ramp_length, 0, t⟩,
   ⟨addr, gain / 2, flatLen, 1, t⟩,
   ⟨addr + ramp_length, gain, ramp_length, 0, t + ramp_length + flatLen⟩]

/-- The timestamp update of `QickProgram.flat_top_pulse` (`qick_asm.py`
line 248): `dac_ts[ch] = t + length + 2*ramp_length`. -/
def flat_top_ts (t : Int) (envSamples flatLen : Nat) : Int :=
  t + flatLen + 2 * ((envSamples / 16 / 2 : Nat) : Int)

/-- Concrete timestamp store used by the C6 witness. -/
def c6ts : TS := ⟨2, 1, fun _ => 0, fun _ => 0⟩

/-- Concrete timestamp store used by the C7 witness. -/
def c7ts : TS := ⟨2, 1, fun _ => 0, fun _ => 0⟩

/-- Concrete operation sequence for the C7 witness: two automatic pulses on
generator 0 interleaved with an explicit pulse on generator 1 and a
trigger. -/
def c7ops : List SchedOp :=
  [.pulseAuto 0 2, .pulseAt 1 5 3, .pulseAuto 0 (3 / 2), .triggerOp 7 [(0, 1)]]

end Qick

namespace Qick

/-! ## Theorems -/

/-- C1: for a non-negative immediate, `safe_regwi` emits one instruction when
`imm < 2^30`, and two (when `4 ∣ imm`) or three instructions otherwise; but
the emitted sequence does **not** reconstruct the original value: the code
writes `imm >> 1` (its docstring and the spec call for the upper 30 bits,
`imm >> 2`) before shifting left by 2, so at `imm = 2^30` the two emitted
instructions leave `2^31` in the register, not `2^30`. -/
theorem c1_safe_regwi_reconstruction_bug :
    (safe_regwi 0 16 (2 ^ 30 - 1)).length = 1 ∧
    (safe_regwi 0 16 (2 ^ 30)).length = 2 ∧
    (safe_regwi 0 16 (2 ^ 30 + 1)).length = 3 ∧
    simulate (safe_regwi 0 16 (2 ^ 30)) 0 = 2 ^ 31 ∧
    (2 ^ 31 : Nat) ≠ 2 ^ 30 := by
  refine ⟨?_, ?_, ?_, ?_, by decide⟩ <;> decide

/-- C2 counterexample: the claim says `convert_immediate` fails for every
`v ≥ 2^31` and for every `v < -2^31`, but the code only rejects `v > 2^31`:
at `v = 2^31` it returns `2^31`, and at `v = -2^31 - 1` it returns `-1`. -/
theorem c2_boundary_counterexample :
    convert_immediate (2 ^ 31) = .ok (2 ^ 31) ∧
    convert_immediate (-(2 ^ 31) - 1) = .ok (-1) := by
  constructor <;> decide

/-- C2 amended: `convert_immediate v` returns `v` for `0 ≤ v ≤ 2^31`,
returns `2^31 + v` for every `v < 0` (with no lower bound check), and fails
exactly when `v > 2^31`. -/
theorem c2_convert_immediate_amended (v : Int) :
    (0 ≤ v → v ≤ 2 ^ 31 → convert_immediate v = .ok v) ∧
    (v < 0 → convert_immediate v = .ok (2 ^ 31 + v)) ∧
    (2 ^ 31 < v → convert_immediate v = .error .runtimeError) := by
  unfold convert_immediate
  refine ⟨fun h1 h2 => ?_, fun h => ?_, fun h => ?_⟩
  · rw [if_neg (by omega), if_neg (by omega)]
  · rw [if_neg (by omega), if_pos h]
  · rw [if_pos h]

/-- Witness for C2: the amended theorem evaluated at 7, -3 and 2^31 + 1. -/
theorem c2_witness :
    convert_immediate 7 = .ok 7 ∧
    convert_immediate (-3) = .ok (2 ^ 31 + (-3)) ∧
    convert_immediate (2 ^ 31 + 1) = .error .runtimeError :=
  ⟨(c2_convert_immediate_amended 7).1 (by norm_num) (by norm_num),
   (c2_convert_immediate_amended (-3)).2.1 (by norm_num),
   (c2_convert_immediate_amended (2 ^ 31 + 1)).2.2 (by norm_num)⟩

/-- C4: `align` ignores its `chs` argument.  With channel 2 at time 5 and all
other channels at 0, `align ts [1]` sets channel 1 to 5 (the claim predicts
the maximum among `chs = [1]`, which is 0) and also changes channel 3, which
is not in `chs`, from 0 to 5 (the claim says channels outside `chs` are left
unchanged). -/
theorem c4_align_ignores_chs :
    c4ts 1 = 0 ∧ c4ts 3 = 0 ∧
    align c4ts [1] 1 = 5 ∧ align c4ts [1] 3 = 5 := by
  refine ⟨rfl, rfl, ?_, ?_⟩ <;> decide

theorem toBytesAux_length (w : Nat) : ∀ n, (toBytesAux w n).length = w := by
  induction w with
  | zero => intro n; rfl
  | succ w ih => intro n; simp [toBytesAux, ih]

theorem from_le_toBytesAux (w : Nat) :
    ∀ n, n < 2 ^ (8 * w) → from_le (toBytesAux w n) = n := by
  induction w with
  | zero => intro n hn; interval_cases n; rfl
  | succ w ih =>
    intro n hn
    have hpow : 2 ^ (8 * (w + 1)) = 2 ^ (8 * w) * 256 := by
      rw [show 8 * (w + 1) = 8 * w + 8 by ring, pow_add]; norm_num
    have hdiv : n / 256 < 2 ^ (8 * w) := by
      rw [Nat.div_lt_iff_lt_mul (by norm_num)]; omega
    simp only [toBytesAux, from_le, ih (n / 256) hdiv]
    omega

theorem to_bytes_ok {w : Nat} {i : Int} {bs : List Nat}
    (h : to_bytes w i = .ok bs) :
    bs.length = w ∧ from_le bs = (i.emod (2 ^ (8 * w))).toNat := by
  unfold to_bytes at h
  split at h
  · exact absurd h (by simp)
  · have hbs : bs = toBytesAux w (i.emod (2 ^ (8 * w))).toNat := by
      exact (Except.ok.inj h).symm
    subst hbs
    refine ⟨toBytesAux_length w _, from_le_toBytesAux w _ ?_⟩
    have h1 : (0 : Int) ≤ i.emod (2 ^ (8 * w)) :=
      Int.emod_nonneg i (by positivity)
    have h2 : i.emod (2 ^ (8 * w)) < 2 ^ (8 * w) :=
      Int.emod_lt_of_pos i (by positivity)
    have hcast : ((2 ^ (8 * w) : Nat) : Int) = 2 ^ (8 * w) := by push_cast; ring
    omega

/-- C3: `Wave.compile` serializes the six fields little-endian, in field
order, at widths 4/4/3/4/4/2 (21 bytes total), inserts a single zero byte
after byte 11 (i.e. exactly between the envelope-address field and the gain
field) and appends ten zero bytes, for a 32-byte record; decoding each byte
group little-endian recovers the corresponding field (mod its width). -/
theorem c3_wave_compile (wv : Wave) (bs : List Nat) (h : wv.compile = .ok bs) :
    ∃ bf bp be bg bl bc : List Nat,
      to_bytes 4 wv.freq = .ok bf ∧ to_bytes 4 wv.phase = .ok bp ∧
      to_bytes 3 wv.env = .ok be ∧ to_bytes 4 wv.gain = .ok bg ∧
      to_bytes 4 wv.length = .ok bl ∧ to_bytes 2 wv.conf = .ok bc ∧
      bs = bf ++ bp ++ be ++ [0] ++ bg ++ bl ++ bc ++ List.replicate 10 0 ∧
      (bf ++ bp ++ be ++ bg ++ bl ++ bc).length = 21 ∧
      bs.length = 32 ∧
      from_le bf = (wv.freq.emod (2 ^ 32)).toNat ∧
      from_le bp = (wv.phase.emod (2 ^ 32)).toNat ∧
      from_le be = (wv.env.emod (2 ^ 24)).toNat ∧
      from_le bg = (wv.gain.emod (2 ^ 32)).toNat ∧
      from_le bl = (wv.length.emod (2 ^ 32)).toNat ∧
      from_le bc = (wv.conf.emod (2 ^ 16)).toNat := by
  unfold Wave.compile Wave.rawbytes at h
  simp only [bind, Except.bind] at h
  cases h1 : to_bytes 4 wv.freq with
  | error e => rw [h1] at h; exact absurd h (by simp)
  | ok bf =>
  rw [h1] at h
  cases h2 : to_bytes 4 wv.phase with
  | error e => rw [h2] at h; exact absurd h (by simp)
  | ok bp =>
  rw [h2] at h
  cases h3 : to_bytes 3 wv.env with
  | error e => rw [h3] at h; exact absurd h (by simp)
  | ok be =>
  rw [h3] at h
  cases h4 : to_bytes 4 wv.gain with
  | error e => rw [h4] at h; exact absurd h (by simp)
  | ok bg =>
  rw [h4] at h
  cases h5 : to_bytes 4 wv.length with
  | error e => rw [h5] at h; exact absurd h (by simp)
  | ok bl =>
  rw [h5] at h
  cases h6 : to_bytes 2 wv.conf with
  | error e => rw [h6] at h; exact absurd h (by simp)
  | ok bc =>
  rw [h6] at h
  simp only [pure, Except.pure, Except.ok.injEq] at h
  obtain ⟨hf1, hf2⟩ := to_bytes_ok h1
  obtain ⟨hp1, hp2⟩ := to_bytes_ok h2
  obtain ⟨he1, he2⟩ := to_bytes_ok h3
  obtain ⟨hg1, hg2⟩ := to_bytes_ok h4
  obtain ⟨hl1, hl2⟩ := to_bytes_ok h5
  obtain ⟨hc1, hc2⟩ := to_bytes_ok h6
  have hsplit : bf ++ bp ++ be ++ bg ++ bl ++ bc =
      (bf ++ bp ++ be) ++ (bg ++ bl ++ bc) := by
    simp [List.append_assoc]
  have hlen11 : (bf ++ bp ++ be).length = 11 := by
    simp [hf1, hp1, he1]
  have htake : (bf ++ bp ++ be ++ bg ++ bl ++ bc).take 11 =
      bf ++ bp ++ be := by
    rw [hsplit, ← hlen11, List.take_left]
  have hdrop : (bf ++ bp ++ be ++ bg ++ bl ++ bc).drop 11 =
      bg ++ bl ++ bc := by
    rw [hsplit, ← hlen11, List.drop_left]
  rw [htake, hdrop] at h
  refine ⟨bf, bp, be, bg, bl, bc, rfl, rfl, rfl, rfl, rfl, rfl, ?_, ?_, ?_,
    by simpa using hf2, by simpa using hp2, by simpa using he2,
    by simpa using hg2, by simpa using hl2, by simpa using hc2⟩
  · rw [← h]
    simp [List.append_assoc]
  · simp [hf1, hp1, he1, hg1, hl1, hc1]
  · rw [← h]
    simp [hf1, hp1, he1, hg1, hl1, hc1]

/-- Witness for C3: the wave (100, 50, 3, 1000, 200, 5) compiles to a
concrete 32-byte record (22 bytes of payload before the 10-byte DMA pad). -/
theorem c3_witness :
    c3wave.compile = .ok c3bytes ∧
    ∃ bf bp be bg bl bc : List Nat,
      to_bytes 4 c3wave.freq = .ok bf ∧ to_bytes 4 c3wave.phase = .ok bp ∧
      to_bytes 3 c3wave.env = .ok be ∧ to_bytes 4 c3wave.gain = .ok bg ∧
      to_bytes 4 c3wave.length = .ok bl ∧ to_bytes 2 c3wave.conf = .ok bc ∧
      c3bytes = bf ++ bp ++ be ++ [0] ++ bg ++ bl ++ bc ++ List.replicate 10 0 ∧
      (bf ++ bp ++ be ++ bg ++ bl ++ bc).length = 21 ∧
      c3bytes.length = 32 ∧
      from_le bf = (c3wave.freq.emod (2 ^ 32)).toNat ∧
      from_le bp = (c3wave.phase.emod (2 ^ 32)).toNat ∧
      from_le be = (c3wave.env.emod (2 ^ 24)).toNat ∧
      from_le bg = (c3wave.gain.emod (2 ^ 32)).toNat ∧
      from_le bl = (c3wave.length.emod (2 ^ 32)).toNat ∧
      from_le bc = (c3wave.conf.emod (2 ^ 16)).toNat :=
  ⟨by decide, c3_wave_compile c3wave c3bytes (by decide)⟩

/-- C10: every `Wave` produced by `params2wave` has `3 ≤ length < 2^16`;
out-of-range length registers are rejected with an error; consequently the
wave-table invariant `3 ≤ length < 2^16` is preserved by every successful
`add_pulse`, whatever the pulse style. -/
theorem c10_wave_length_invariant
    (freqreg phasereg gainreg lenreg env_addr env_length : Int)
    (mode : Option GenMode) (outsel : Option Outsel) (stdysel : Option Stdysel)
    (phrst : Option Nat) (style : PulseStyle) (table table2 : List Wave)
    (hinv : ∀ w ∈ table, 3 ≤ w.length ∧ w.length < 2 ^ 16)
    (hadd : add_pulse_waves table style freqreg phasereg gainreg env_addr
      env_length mode outsel stdysel phrst = .ok table2) :
    (∀ w : Wave, params2wave freqreg phasereg gainreg lenreg env_addr mode
        outsel stdysel phrst = .ok w → 3 ≤ w.length ∧ w.length < 2 ^ 16) ∧
    (lenreg < 3 ∨ lenreg ≥ 2 ^ 16 →
      params2wave freqreg phasereg gainreg lenreg env_addr mode outsel stdysel
        phrst = .error .runtimeError) ∧
    (∀ w ∈ table2, 3 ≤ w.length ∧ w.length < 2 ^ 16) := by
  have hwave : ∀ len w, params2wave freqreg phasereg gainreg len env_addr mode
      outsel stdysel phrst = .ok w → 3 ≤ w.length ∧ w.length < 2 ^ 16 := by
    intro len w hw
    unfold params2wave at hw
    split at hw
    · exact absurd hw (by simp)
    · rename_i hrange
      have := Except.ok.inj hw
      subst this
      push_neg at hrange
      exact ⟨hrange.2, hrange.1⟩
  refine ⟨fun w => hwave lenreg w, fun hout => ?_, ?_⟩
  · unfold params2wave
    rw [if_pos (by omega)]
  · unfold add_pulse_waves params2pulse_waves at hadd
    cases style with
    | const => exact absurd hadd (by simp [bind, Except.bind])
    | arb =>
      simp only [bind, Except.bind] at hadd
      cases hw : params2wave freqreg phasereg gainreg env_length env_addr mode
          outsel stdysel phrst with
      | error e => rw [hw] at hadd; exact absurd hadd (by simp)
      | ok w =>
        rw [hw] at hadd
        simp only [pure, Except.pure, Except.ok.injEq] at hadd
        intro x hx
        rw [← hadd] at hx
        rcases List.mem_append.mp hx with hmem | hmem
        · exact hinv x hmem
        · have : x = w := by simpa using hmem
          subst this
          exact hwave env_length x hw
    | flat_top =>
      simp only [bind, Except.bind, pure, Except.pure, Except.ok.injEq] at hadd
      intro x hx
      rw [← hadd] at hx
      exact hinv x (by simpa using hx)

/-- C5: placing a label does not always bind the address that the next
appended instruction will receive.  After a single `wait` (a compound
instruction consuming two address slots), `add_label` binds
`len(prog_list)+1 = 2` while the next appended instruction receives
`P_ADDR = 3`; no instruction ever gets address 2. -/
theorem c5_label_after_wait_bug :
    (((ProgV2.init 16).wait 5).add_label "L").labels.lookup "L" = some 2 ∧
    ((((ProgV2.init 16).wait 5).add_label "L").add_instruction
        (.regWrImm "r0" 0 false) 1).prog_list.map TaggedInst.pAddr = [1, 3] := by
  constructor <;> decide

theorem new_reg_ok {p : ProgV2} {name : String} {pr : ProgV2 × Nat}
    (h : p.new_reg name = .ok pr) :
    p.user_reg_dict.lookup name = none ∧
    pr.1 = { p with user_regs := p.user_regs ++ [pr.2],
                    user_reg_dict := (name, pr.2) :: p.user_reg_dict } := by
  unfold ProgV2.new_reg at h
  split at h
  · exact absurd h (by simp)
  · split at h
    · exact absurd h (by simp)
    · rename_i hguard
      have h2 := Except.ok.inj h
      refine ⟨?_, by rw [← h2]⟩
      rcases hx : p.user_reg_dict.lookup name with _ | v
      · rfl
      · rw [hx] at hguard
        exact absurd rfl hguard

theorem open_loop_ok {p r : ProgV2} {n : Int}
    (h : p.open_loop n = .ok r) :
    ∃ addr : Nat,
      p.user_reg_dict.lookup ("loop_" ++ toString p.loop_list.length) = none ∧
      r = ((({ p with
          user_regs := p.user_regs ++ [addr],
          user_reg_dict :=
            ("loop_" ++ toString p.loop_list.length, addr) :: p.user_reg_dict,
          loop_list := p.loop_list ++ ["loop_" ++ toString p.loop_list.length],
          loop_stack := p.loop_stack ++ ["loop_" ++ toString p.loop_list.length]
          } : ProgV2).add_instruction
          (.regWrImm ("r" ++ toString addr) n false) 1).add_label
        (strUpper ("loop_" ++ toString p.loop_list.length))) := by
  unfold ProgV2.open_loop at h
  simp only [bind, Except.bind] at h
  cases hnr : p.new_reg ("loop_" ++ toString p.loop_list.length) with
  | error e => rw [hnr] at h; exact absurd h (by simp)
  | ok pr =>
    rw [hnr] at h
    simp only [pure, Except.pure, Except.ok.injEq] at h
    obtain ⟨hg, hshape⟩ := new_reg_ok hnr
    refine ⟨pr.2, hg, ?_⟩
    rw [← h, hshape]

theorem close_loop_state {s t : ProgV2} (h : s.close_loop = .ok t) :
    t.loop_stack = s.loop_stack.dropLast ∧
    t.user_reg_dict = s.user_reg_dict := by
  unfold ProgV2.close_loop at h
  split at h
  · exact absurd h (by simp)
  · split at h
    · exact absurd h (by simp)
    · have h2 := Except.ok.inj h
      rw [← h2]
      exact ⟨rfl, rfl⟩

theorem loopBody_inv {p q : ProgV2} (h : LoopBody p q) :
    q.loop_stack = p.loop_stack ∧
    ∀ nm a, p.user_reg_dict.lookup nm = some a →
      q.user_reg_dict.lookup nm = some a := by
  induction h with
  | refl p => exact ⟨rfl, fun nm a ha => ha⟩
  | inst i k hb ih => exact ih
  | waitStep t hb ih => exact ih
  | labelStep lab hb ih => exact ih
  | newRegStep nm hb hnr ih =>
    obtain ⟨hg, hshape⟩ := new_reg_ok hnr
    constructor
    · rw [hshape]
      exact ih.1
    · intro nm2 a ha
      have hq := ih.2 nm2 a ha
      rw [hshape]
      by_cases hnm : nm2 = nm
      · subst hnm
        rw [hq] at hg
        exact absurd hg (by simp)
      · have hbeq : (nm2 == nm) = false := beq_eq_false_iff_ne.mpr hnm
        show List.lookup nm2 ((nm, _) :: _) = some a
        simp [List.lookup, hbeq, hq]
  | @nested pp qq rr ss tt n hb1 hopen hb2 hclose ih1 ih2 =>
    obtain ⟨addr, hg, hr⟩ := open_loop_ok hopen
    obtain ⟨hcs, hcd⟩ := close_loop_state hclose
    constructor
    · rw [hcs, ih2.1, hr]
      show (qq.loop_stack ++ ["loop_" ++ toString qq.loop_list.length]).dropLast =
        pp.loop_stack
      rw [List.dropLast_concat]
      exact ih1.1
    · intro nm a ha
      have h1 := ih1.2 nm a ha
      have h2 : rr.user_reg_dict.lookup nm = some a := by
        rw [hr]
        show List.lookup nm
          (("loop_" ++ toString qq.loop_list.length, addr) :: qq.user_reg_dict) =
          some a
        by_cases hnm : nm = "loop_" ++ toString qq.loop_list.length
        · subst hnm
          rw [h1] at hg
          exact absurd hg (by simp)
        · have hbeq : (nm == "loop_" ++ toString qq.loop_list.length) = false :=
            beq_eq_false_iff_ne.mpr hnm
          simp [List.lookup, hbeq, h1]
      have h3 := ih2.2 nm a h2
      rw [hcd]
      exact h3

theorem close_loop_ok (p : ProgV2) (name : String) (addr : Nat) (l : List String)
    (hst : p.loop_stack = l ++ [name])
    (hlk : p.user_reg_dict.lookup name = some addr) :
    p.close_loop = .ok
      ((({ p with loop_stack := l } : ProgV2).add_instruction
          (.regWrOp ("r" ++ toString addr) ("r" ++ toString addr ++ "-#1") true)
          1).add_instruction (.jumpLabel (strUpper name) "NZ" false) 1) := by
  unfold ProgV2.close_loop
  rw [hst, List.getLast?_concat, List.dropLast_concat]
  simp [hlk]

/-- C9: in every state where `open_loop n` was the most recent unmatched
loop opening - i.e. after any loop body made of appended instructions
(compound waits included), placed labels, allocated registers and properly
nested inner loops - `close_loop` appends exactly two instructions: the
flag-updating decrement (`UF=1`) of the very counter register the matching
`open_loop` allocated, then a conditional NZ jump whose target is exactly
the label the matching `open_loop` placed (bound, at placement, to the
address right after the counter write).  With an empty loop stack,
`close_loop` fails instead (Python raises `IndexError` popping the empty
list - the failure the spec taxonomy files under `ValidationError` as
"unbalanced close"). -/
theorem c9_close_loop (p q p0 p1 : ProgV2) (n : Int)
    (hopen : p.open_loop n = .ok p0)
    (hbody : LoopBody p0 p1)
    (hq : q.loop_stack = []) :
    (∃ p2 : ProgV2, ∃ addr : Nat,
      p0.user_reg_dict.lookup ("loop_" ++ toString p.loop_list.length) =
        some addr ∧
      p0.labels.lookup (strUpper ("loop_" ++ toString p.loop_list.length)) =
        some (p.prog_list.length + 2) ∧
      p1.close_loop = .ok p2 ∧
      p2.prog_list = p1.prog_list ++
        [⟨.regWrOp ("r" ++ toString addr) ("r" ++ toString addr ++ "-#1") true,
          p1.p_addr, p1.line⟩,
         ⟨.jumpLabel (strUpper ("loop_" ++ toString p.loop_list.length)) "NZ"
            false, p1.p_addr + 1, p1.line + 1⟩]) ∧
    q.close_loop = .error .indexError := by
  constructor
  · obtain ⟨addr, hg, hp0⟩ := open_loop_ok hopen
    have hlk0 : p0.user_reg_dict.lookup
        ("loop_" ++ toString p.loop_list.length) = some addr := by
      rw [hp0]
      show List.lookup ("loop_" ++ toString p.loop_list.length)
        (("loop_" ++ toString p.loop_list.length, addr) :: p.user_reg_dict) =
        some addr
      simp [List.lookup]
    have hlab0 : p0.labels.lookup
        (strUpper ("loop_" ++ toString p.loop_list.length)) =
        some (p.prog_list.length + 2) := by
      rw [hp0]
      simp [ProgV2.add_label, ProgV2.add_instruction, List.lookup]
    have hinv := loopBody_inv hbody
    have hstack : p1.loop_stack =
        p.loop_stack ++ ["loop_" ++ toString p.loop_list.length] := by
      rw [hinv.1, hp0]
      rfl
    have hlk1 := hinv.2 _ addr hlk0
    have hclose := close_loop_ok p1 ("loop_" ++ toString p.loop_list.length)
      addr p.loop_stack hstack hlk1
    refine ⟨_, addr, hlk0, hlab0, hclose, ?_⟩
    simp [ProgV2.add_instruction]
  · unfold ProgV2.close_loop
    rw [hq]
    rfl

/-- Witness for C9: `open_loop 100` on a fresh 16-register program, one
body instruction, then `close_loop`; and `close_loop` alone on the fresh
program fails. -/
theorem c9_witness :
    (ProgV2.init 16).open_loop 100 = .ok c9p1 ∧
    LoopBody c9p1 c9p2 ∧
    (ProgV2.init 16).loop_stack = [] ∧
    ((∃ p2 : ProgV2, ∃ addr : Nat,
      c9p1.user_reg_dict.lookup
          ("loop_" ++ toString (ProgV2.init 16).loop_list.length) = some addr ∧
      c9p1.labels.lookup
          (strUpper ("loop_" ++ toString (ProgV2.init 16).loop_list.length)) =
        some ((ProgV2.init 16).prog_list.length + 2) ∧
      c9p2.close_loop = .ok p2 ∧
      p2.prog_list = c9p2.prog_list ++
        [⟨.regWrOp ("r" ++ toString addr) ("r" ++ toString addr ++ "-#1") true,
          c9p2.p_addr, c9p2.line⟩,
         ⟨.jumpLabel
            (strUpper ("loop_" ++ toString (ProgV2.init 16).loop_list.length))
            "NZ" false, c9p2.p_addr + 1, c9p2.line + 1⟩]) ∧
    (ProgV2.init 16).close_loop = .error .indexError) :=
  ⟨by decide, LoopBody.inst _ _ (LoopBody.refl c9p1), rfl,
   c9_close_loop (ProgV2.init 16) (ProgV2.init 16) c9p1 c9p2 100 (by decide)
     (LoopBody.inst _ _ (LoopBody.refl c9p1)) rfl⟩

theorem pyint_ge (n : Int) (q : ℚ) (h : (n : ℚ) ≤ q) : n ≤ pyint q := by
  unfold pyint
  split
  · have h2 : (n : ℚ) ≤ (⌈q⌉ : ℚ) := le_trans h (Int.le_ceil q)
    exact_mod_cast h2
  · exact Int.le_floor.mpr h

theorem pyint_int_add (n : Int) (q : ℚ) (hn : 0 ≤ n) (hq : 0 ≤ q) :
    pyint ((n : ℚ) + q) = n + ⌊q⌋ := by
  unfold pyint
  rw [if_neg (not_lt.mpr (add_nonneg (by exact_mod_cast hn) hq)),
    Int.floor_int_add]

theorem step_pulseAuto (s : TS) (ch : Nat) (L : ℚ) :
    step s (.pulseAuto ch L) = pulse_auto s ch L := rfl

theorem step_pulseAt (s : TS) (ch : Nat) (t : Int) (L : ℚ) :
    step s (.pulseAt ch t L) = pulse_at s ch t L := rfl

theorem step_trigger (s : TS) (treg : Int) (ros : List (Nat × ℚ)) :
    step s (.triggerOp treg ros) = (trigger_ros s treg ros).1 := rfl

theorem step_sync (s : TS) (treg : Int) :
    step s (.syncAll treg) = sync_all s treg := rfl

theorem step_align (s : TS) : step s .alignOp = s.alignGens := rfl

theorem set_gen_gen (s : TS) (ch : Nat) (v : Int) (c : Nat) :
    (s.set_gen ch v).gen_ts c = if c = ch then v else s.gen_ts c := rfl

theorem set_gen_ro (s : TS) (ch : Nat) (v : Int) :
    (s.set_gen ch v).ro_ts = s.ro_ts := rfl

theorem set_ro_ro (s : TS) (ch : Nat) (v : Int) (c : Nat) :
    (s.set_ro ch v).ro_ts c = if c = ch then v else s.ro_ts c := rfl

theorem set_ro_gen (s : TS) (ch : Nat) (v : Int) :
    (s.set_ro ch v).gen_ts = s.gen_ts := rfl

theorem alignGens_gen (s : TS) (c : Nat) :
    s.alignGens.gen_ts c =
      if c < s.ngens then intMax ((List.range s.ngens).map s.gen_ts)
      else s.gen_ts c := rfl

theorem trigger_ros_cons (s : TS) (treg : Int) (r1 : Nat) (ln : ℚ)
    (rest : List (Nat × ℚ)) :
    trigger_ros s treg ((r1, ln) :: rest) =
      if treg < s.ro_ts r1 then (s, true)
      else trigger_ros (s.set_ro r1 (pyint ((treg : ℚ) + ln))) treg rest := rfl

theorem trigger_ros_gen : ∀ (ros : List (Nat × ℚ)) (s : TS) (treg : Int),
    (trigger_ros s treg ros).1.gen_ts = s.gen_ts := by
  intro ros
  induction ros with
  | nil => intro s treg; rfl
  | cons x rest ih =>
    intro s treg
    rcases x with ⟨r1, ln⟩
    rw [trigger_ros_cons]
    by_cases hcond : treg < s.ro_ts r1
    · rw [if_pos hcond]
    · rw [if_neg hcond, ih, set_ro_gen]

theorem trigger_ros_mono : ∀ (ros : List (Nat × ℚ)) (s : TS) (treg : Int),
    (∀ x ∈ ros, (0 : ℚ) ≤ x.2) →
    ∀ c, s.ro_ts c ≤ (trigger_ros s treg ros).1.ro_ts c := by
  intro ros
  induction ros with
  | nil => intro s treg h c; exact le_refl _
  | cons x rest ih =>
    intro s treg h c
    rcases x with ⟨r1, ln⟩
    rw [trigger_ros_cons]
    by_cases hcond : treg < s.ro_ts r1
    · rw [if_pos hcond]
    · rw [if_neg hcond]
      have hle : s.ro_ts r1 ≤ treg := not_lt.mp hcond
      have hln : (0 : ℚ) ≤ ln := h (r1, ln) (List.mem_cons_self _ _)
      have hstep2 : ∀ c2, s.ro_ts c2 ≤
          (s.set_ro r1 (pyint ((treg : ℚ) + ln))).ro_ts c2 := by
        intro c2
        rw [set_ro_ro]
        by_cases hc : c2 = r1
        · subst hc
          rw [if_pos rfl]
          refine le_trans hle (pyint_ge treg _ ?_)
          linarith
        · rw [if_neg hc]
      exact le_trans (hstep2 c)
        (ih _ treg (fun y hy => h y (List.mem_cons_of_mem _ hy)) c)

theorem foldl_max_init : ∀ (l : List Int) (a : Int), a ≤ l.foldl max a := by
  intro l
  induction l with
  | nil => intro a; exact le_refl a
  | cons x rest ih =>
    intro a
    exact le_trans (le_max_left a x) (ih (max a x))

theorem foldl_max_mem : ∀ (l : List Int) (a b : Int), b ∈ l → b ≤ l.foldl max a := by
  intro l
  induction l with
  | nil => intro a b h; exact absurd h (List.not_mem_nil b)
  | cons x rest ih =>
    intro a b h
    rcases List.mem_cons.mp h with h1 | h1
    · subst h1
      exact le_trans (le_max_right a b) (foldl_max_init rest (max a b))
    · exact ih (max a x) b h1

theorem le_intMax_of_mem {l : List Int} {b : Int} (h : b ∈ l) : b ≤ intMax l := by
  cases l with
  | nil => exact absurd h (List.not_mem_nil b)
  | cons a rest =>
    rcases List.mem_cons.mp h with h1 | h1
    · subst h1; exact foldl_max_init rest b
    · exact foldl_max_mem rest a b h1

/-- C6: every scheduling operation with non-negative durations, other than
the global reset, leaves every generator and readout timestamp at or above
its previous value (a conflicting trigger aborts mid-loop with Python's
`NameError`, having only raised timestamps); and the only decreasing
operation, `sync_all`, either changes nothing or sets every timestamp to
exactly zero. -/
theorem c6_timestamps_monotone (s : TS) (op : SchedOp)
    (hd : nonnegDur op) (hs : op.isSync = false) :
    ((∀ ch, s.gen_ts ch ≤ (step s op).gen_ts ch) ∧
     (∀ ch, s.ro_ts ch ≤ (step s op).ro_ts ch)) ∧
    (∀ t : Int, step s (.syncAll t) = s ∨
      ((∀ ch, (step s (.syncAll t)).gen_ts ch = 0) ∧
       (∀ ch, (step s (.syncAll t)).ro_ts ch = 0))) := by
  constructor
  · cases op with
    | pulseAuto ch L =>
      have hL : (0 : ℚ) ≤ L := hd
      refine ⟨fun c => ?_, fun c => le_refl _⟩
      rw [step_pulseAuto]
      show s.gen_ts c ≤ (s.set_gen ch (pyint ((s.gen_ts ch : ℚ) + L))).gen_ts c
      rw [set_gen_gen]
      by_cases hc : c = ch
      · subst hc
        rw [if_pos rfl]
        exact pyint_ge _ _ (by linarith)
      · rw [if_neg hc]
    | pulseAt ch t L =>
      have hL : (0 : ℚ) ≤ L := hd
      constructor
      · intro c
        rw [step_pulseAt]
        unfold pulse_at
        by_cases hb : t < s.gen_ts ch
        · rw [if_pos hb, set_gen_gen]
          by_cases hc : c = ch
          · subst hc
            rw [if_pos rfl]
            exact pyint_ge _ _ (by linarith)
          · rw [if_neg hc]
        · rw [if_neg hb, set_gen_gen]
          have hle : s.gen_ts ch ≤ t := not_lt.mp hb
          by_cases hc : c = ch
          · subst hc
            rw [if_pos rfl]
            exact le_trans hle (pyint_ge _ _ (by linarith))
          · rw [if_neg hc]
      · intro c
        rw [step_pulseAt]
        unfold pulse_at
        by_cases hb : t < s.gen_ts ch
        · rw [if_pos hb]
          exact le_refl _
        · rw [if_neg hb]
          exact le_refl _
    | triggerOp treg ros =>
      have hros : ∀ x ∈ ros, (0 : ℚ) ≤ x.2 := hd
      refine ⟨fun c => ?_, fun c => ?_⟩
      · rw [step_trigger, trigger_ros_gen ros s treg]
      · rw [step_trigger]
        exact trigger_ros_mono ros s treg hros c
    | alignOp =>
      refine ⟨fun c => ?_, fun c => le_refl _⟩
      rw [step_align, alignGens_gen]
      by_cases hc : c < s.ngens
      · rw [if_pos hc]
        exact le_intMax_of_mem
          (List.mem_map_of_mem s.gen_ts (List.mem_range.mpr hc))
      · rw [if_neg hc]
    | syncAll t => simp [SchedOp.isSync] at hs
  · intro t
    rw [step_sync]
    unfold sync_all
    by_cases hb : s.get_max + t > 0
    · rw [if_pos hb]
      right
      exact ⟨fun ch => rfl, fun ch => rfl⟩
    · rw [if_neg hb]
      left
      rfl

/-- Witness for C6: an automatic pulse of scaled length 3/2 on generator 0. -/
theorem c6_witness :
    nonnegDur (.pulseAuto 0 (3 / 2 : ℚ)) ∧
    (SchedOp.pulseAuto 0 (3 / 2 : ℚ)).isSync = false ∧
    (((∀ ch, c6ts.gen_ts ch ≤ (step c6ts (.pulseAuto 0 (3 / 2))).gen_ts ch) ∧
      (∀ ch, c6ts.ro_ts ch ≤ (step c6ts (.pulseAuto 0 (3 / 2))).ro_ts ch)) ∧
     (∀ t : Int, step c6ts (.syncAll t) = c6ts ∨
       ((∀ ch, (step c6ts (.syncAll t)).gen_ts ch = 0) ∧
        (∀ ch, (step c6ts (.syncAll t)).ro_ts ch = 0)))) :=
  ⟨by norm_num [nonnegDur], rfl,
   c6_timestamps_monotone c6ts (.pulseAuto 0 (3 / 2))
     (by norm_num [nonnegDur]) rfl⟩

/-- C7: a sequence of operations that touches generator channel `ch` only
through automatic-time pulses leaves `ch`'s timestamp at its initial value
plus the sum of the integer durations `⌊scaled length⌋` of exactly those
pulses, in particular independent of whatever was scheduled on the other
channels in between.  (`⌊scaled length⌋` is the per-pulse advance: the store
holds integers, so `int(ts + L) = ts + ⌊L⌋`.) -/
theorem c7_auto_pulse_sum (ch : Nat) (ops : List SchedOp) (s : TS)
    (hav : ∀ op ∈ ops, avoidsCh ch op)
    (hL : ∀ L ∈ chAutoDurs ch ops, (0 : ℚ) ≤ L)
    (h0 : 0 ≤ s.gen_ts ch) :
    (run s ops).gen_ts ch =
      s.gen_ts ch + ((chAutoDurs ch ops).map (fun L => ⌊L⌋)).sum := by
  induction ops generalizing s with
  | nil => simp [run, chAutoDurs]
  | cons op rest ih =>
    have hav1 := hav op (List.mem_cons_self op rest)
    have havr : ∀ o ∈ rest, avoidsCh ch o :=
      fun o ho => hav o (List.mem_cons_of_mem op ho)
    have hrunc : run s (op :: rest) = run (step s op) rest := rfl
    cases op with
    | pulseAuto c L =>
      by_cases hc : c = ch
      · subst hc
        have hL1 : (0 : ℚ) ≤ L := hL L (by simp [chAutoDurs])
        have hLr : ∀ x ∈ chAutoDurs c rest, (0 : ℚ) ≤ x := by
          intro x hx
          exact hL x (by simp [chAutoDurs, hx])
        have hstep : (step s (.pulseAuto c L)).gen_ts c = s.gen_ts c + ⌊L⌋ := by
          rw [step_pulseAuto]
          show (s.set_gen c (pyint ((s.gen_ts c : ℚ) + L))).gen_ts c = _
          rw [set_gen_gen, if_pos rfl]
          exact pyint_int_add _ _ h0 hL1
        have hfl : (0 : Int) ≤ ⌊L⌋ := Int.le_floor.mpr (by exact_mod_cast hL1)
        have hrun := ih (step s (.pulseAuto c L)) havr hLr (by rw [hstep]; omega)
        rw [hrunc, hrun, hstep]
        have hdurs : chAutoDurs c (SchedOp.pulseAuto c L :: rest) =
            L :: chAutoDurs c rest := by
          simp [chAutoDurs]
        rw [hdurs, List.map_cons, List.sum_cons]
        ring
      · have hgen : (step s (.pulseAuto c L)).gen_ts ch = s.gen_ts ch := by
          rw [step_pulseAuto]
          show (s.set_gen c (pyint ((s.gen_ts c : ℚ) + L))).gen_ts ch = _
          rw [set_gen_gen, if_neg (fun h2 => hc h2.symm)]
        have hLr : ∀ x ∈ chAutoDurs ch rest, (0 : ℚ) ≤ x := by
          intro x hx
          exact hL x (by simp [chAutoDurs, hc, hx])
        have hrun := ih (step s (.pulseAuto c L)) havr hLr (by rw [hgen]; exact h0)
        rw [hrunc, hrun, hgen]
        simp [chAutoDurs, hc]
    | pulseAt c t L =>
      have hc : c ≠ ch := hav1
      have hgen : (step s (.pulseAt c t L)).gen_ts ch = s.gen_ts ch := by
        rw [step_pulseAt]
        unfold pulse_at
        by_cases hb : t < s.gen_ts c
        · rw [if_pos hb, set_gen_gen, if_neg (fun h2 => hc h2.symm)]
        · rw [if_neg hb, set_gen_gen, if_neg (fun h2 => hc h2.symm)]
      have hLr : ∀ x ∈ chAutoDurs ch rest, (0 : ℚ) ≤ x := by
        intro x hx
        exact hL x (by simp [chAutoDurs, hx])
      have hrun := ih (step s (.pulseAt c t L)) havr hLr (by rw [hgen]; exact h0)
      rw [hrunc, hrun, hgen]
      simp [chAutoDurs]
    | triggerOp treg ros =>
      have hgen : (step s (.triggerOp treg ros)).gen_ts ch = s.gen_ts ch := by
        rw [step_trigger, trigger_ros_gen ros s treg]
      have hLr : ∀ x ∈ chAutoDurs ch rest, (0 : ℚ) ≤ x := by
        intro x hx
        exact hL x (by simp [chAutoDurs, hx])
      have hrun := ih (step s (.triggerOp treg ros)) havr hLr (by rw [hgen]; exact h0)
      rw [hrunc, hrun, hgen]
      simp [chAutoDurs]
    | alignOp => exact hav1.elim
    | syncAll t => exact hav1.elim

/-- Witness for C7. -/
theorem c7_witness :
    (∀ op ∈ c7ops, avoidsCh 0 op) ∧
    (∀ L ∈ chAutoDurs 0 c7ops, (0 : ℚ) ≤ L) ∧
    0 ≤ c7ts.gen_ts 0 ∧
    (run c7ts c7ops).gen_ts 0 =
      c7ts.gen_ts 0 + ((chAutoDurs 0 c7ops).map (fun L => ⌊L⌋)).sum :=
  ⟨by norm_num [c7ops, avoidsCh, List.forall_mem_cons],
   by norm_num [c7ops, chAutoDurs, List.forall_mem_cons],
   by norm_num [c7ts],
   c7_auto_pulse_sum 0 c7ops c7ts
     (by norm_num [c7ops, avoidsCh, List.forall_mem_cons])
     (by norm_num [c7ops, chAutoDurs, List.forall_mem_cons])
     (by norm_num [c7ts])⟩

/-- C8: for a ramp envelope of even length `2*R` clock cycles (i.e. `32*R`
samples at 16 samples per cycle), the flat-top compiler emits exactly three
play steps: ramp-up at `t` from the start of the envelope with output
selector 0 ("product") and the full gain; the flat segment with output
selector 1 ("dds") and the gain halved by integer division (exactly half
for even gains); and the ramp-down with the envelope address offset by `R`,
scheduled at `t + R + flatLen`.  The channel timestamp becomes
`t + flatLen + 2*R`: an advance of `flatLen + 2*R` over the start time. -/
theorem c8_flat_top (t : Int) (addr gain flatLen R envSamples : Nat)
    (henv : envSamples = 16 * (2 * R)) :
    flat_top_play t addr gain envSamples flatLen =
      [⟨addr, gain, R, 0, t⟩,
       ⟨addr, gain / 2, flatLen, 1, t⟩,
       ⟨addr + R, gain, R, 0, t + R + flatLen⟩] ∧
    (flat_top_play t addr gain envSamples flatLen).length = 3 ∧
    flat_top_ts t envSamples flatLen = t + flatLen + 2 * R := by
  subst henv
  have hr : 16 * (2 * R) / 16 / 2 = R := by omega
  refine ⟨?_, rfl, ?_⟩
  · simp only [flat_top_play, hr]
  · simp only [flat_top_ts, hr]

/-- Witness for C8: a ramp envelope of 64 samples (`R = 2` cycles), flat
length 10, gain 30000, starting at `t = 4`. -/
theorem c8_witness :
    (64 : Nat) = 16 * (2 * 2) ∧
    (flat_top_play 4 0 30000 64 10 =
      [⟨0, 30000, 2, 0, 4⟩,
       ⟨0, 30000 / 2, 10, 1, 4⟩,
       ⟨0 + 2, 30000, 2, 0, 4 + 2 + 10⟩] ∧
     (flat_top_play 4 0 30000 64 10).length = 3 ∧
     flat_top_ts 4 64 10 = 4 + 10 + 2 * 2) :=
  ⟨by norm_num, c8_flat_top 4 0 30000 10 2 64 (by norm_num)⟩

/-- Witness for C10: an `arb` pulse with length register 5 added to an empty
table keeps every stored wave's length within `[3, 2^16)`. -/
theorem c10_witness :
    (∀ w ∈ ([] : List Wave), 3 ≤ w.length ∧ w.length < 2 ^ 16) ∧
    add_pulse_waves [] .arb 7 8 9 2 5 none none none none =
      .ok [⟨7, 8, 2, 9, 5, 8⟩] ∧
    ((∀ w : Wave, params2wave 7 8 9 4 2 none none none none = .ok w →
        3 ≤ w.length ∧ w.length < 2 ^ 16) ∧
     ((4 : Int) < 3 ∨ (4 : Int) ≥ 2 ^ 16 →
        params2wave 7 8 9 4 2 none none none none = .error .runtimeError) ∧
     (∀ w ∈ [(⟨7, 8, 2, 9, 5, 8⟩ : Wave)], 3 ≤ w.length ∧ w.length < 2 ^ 16)) :=
  ⟨by simp, by decide,
   c10_wave_length_invariant 7 8 9 4 2 5 none none none none .arb []
     [⟨7, 8, 2, 9, 5, 8⟩] (by simp) (by decide)⟩

end Qick
